import Mathlib

set_option maxRecDepth 10000

/-!
Verification development for the onebrc aggregation program (src/main.rs).

The source is shallowly embedded: bytes are naturals (0..255), files and
lines are lists of bytes, the `HashMap<u32, (String, City)>` is modelled as
an association list sorted strictly by the `u32` hash key (a canonical
representation of the finite map), and panicking paths are `Except` errors.
Machine integers are modelled as `Int`/`Nat` with explicit two's-complement
wrapping (`wrap64` for `i64`, `wrap32` for `u32`) at each operation that can
overflow, matching release-mode semantics.
-/

/-- Two's-complement wrap of an integer into the `i64` range.
The literals are `2^63` and `2^64`. -/
def wrap64 (x : Int) : Int :=
  (x + 9223372036854775808) % 18446744073709551616 - 9223372036854775808

/-- Wrap of a natural into the `u32` range (`2^32`), for the occurrences counter. -/
def wrap32 (n : Nat) : Nat := n % 4294967296

/-- Model of `struct City { min, max, sum: i64, occurrences: u32 }`. -/
structure City where
  min : Int
  max : Int
  sum : Int
  occurrences : Nat
deriving DecidableEq, Repr

/-- Model of `impl Default for City`: `min = i64::MAX`, `max = i64::MIN`. -/
def City.default : City :=
  ⟨9223372036854775807, -9223372036854775808, 0, 0⟩

/-- Model of `City::add_new_value`. -/
def City.add_new_value (c : City) (new : Int) : City :=
  { min := Min.min c.min new
    max := Max.max c.max new
    sum := wrap64 (c.sum + new)
    occurrences := wrap32 (c.occurrences + 1) }

/-- Model of `City::add_result` (elementwise combination of two aggregates). -/
def City.add_result (c other : City) : City :=
  { min := Min.min c.min other.min
    max := Max.max c.max other.max
    sum := wrap64 (c.sum + other.sum)
    occurrences := wrap32 (c.occurrences + other.occurrences) }

/-- Accumulator loop of `City::add_new`: fold over the value bytes; a digit
multiplies the accumulator by 10 and adds the digit, `-` (45) sets the negate
flag, `.` (46) is skipped, any other byte is the fatal `panic!` (the offending
byte is the error payload). -/
def parseValGo : List Nat → Int → Bool → Except Nat (Int × Bool)
  | [], val, isNeg => .ok (val, isNeg)
  | b :: rest, val, isNeg =>
    if 48 ≤ b ∧ b ≤ 57 then
      parseValGo rest (wrap64 (wrap64 (val * 10) + ((b - 48 : Nat) : Int))) isNeg
    else if b = 45 then parseValGo rest val true
    else if b = 46 then parseValGo rest val isNeg
    else .error b

/-- Value parsing of `City::add_new`: run the byte loop from `0`, then apply
the negation flag at the end (`val.neg()`). -/
def parseVal (input : List Nat) : Except Nat Int :=
  match parseValGo input 0 false with
  | .error b => .error b
  | .ok (v, isNeg) => .ok (if isNeg then wrap64 (-v) else v)

/-- Model of `fn hashstr`: `u32::from_le_bytes([s.len() as u8, b[0], b[1], b[2]])`.
Indexing `b[0]`, `b[1]`, `b[2]` panics for keys shorter than 3 bytes, modelled
as `none`. -/
def hashstr : List Nat → Option Nat
  | a :: b :: c :: rest =>
    some ((a :: b :: c :: rest).length % 256 + a * 256 + b * 65536 + c * 16777216)
  | _ => none

/-- Model of `Citymap`: the `HashMap<u32, (String, City)>` as an association
list sorted strictly by hash key. -/
abbrev Citymap := List (Nat × (List Nat × City))

/-- Association-list lookup by hash key. -/
def Citymap.findHash : Citymap → Nat → Option (List Nat × City)
  | [], _ => none
  | (k, v) :: t, h => if h = k then some v else Citymap.findHash t h

/-- Sorted insertion of a fresh entry (the map never holds the key before the
insertions performed by `Citymap::lookup`). -/
def Citymap.insertSorted : Citymap → Nat → (List Nat × City) → Citymap
  | [], h, v => [(h, v)]
  | (k, w) :: t, h, v =>
    if h < k then (h, v) :: (k, w) :: t
    else if h = k then (k, v) :: t
    else (k, w) :: Citymap.insertSorted t h v

/-- Model of `Citymap::lookup`: hash the key (panicking for keys shorter than
3 bytes), insert a default aggregate under the hash if absent, and return the
map together with the hash and the current aggregate. -/
def Citymap.lookup (m : Citymap) (key : List Nat) : Option (Citymap × Nat × City) :=
  match hashstr key with
  | none => none
  | some h =>
    match Citymap.findHash m h with
    | some (_, c) => some (m, h, c)
    | none => some (Citymap.insertSorted m h (key, City.default), h, City.default)

/-- Replace the aggregate stored under a hash, keeping the stored key text. -/
def Citymap.setCity : Citymap → Nat → City → Citymap
  | [], _, _ => []
  | (k, (s, c)) :: t, h, c' =>
    if h = k then (k, (s, c')) :: t else (k, (s, c)) :: Citymap.setCity t h c'

/-- Error type for the panicking paths of the program; payloads carry the
offending content that the panic messages surface. `fuel` is an artifact of
the fuel-based encoding of the scanner loop and is proved unreachable below. -/
inductive Err where
  | badByte (b : Nat)
  | noDelim (line : List Nat)
  | sliceOob (line : List Nat)
  | hashOob
  | rangesBroken
  | emptyReduce
  | fuel
deriving DecidableEq, Repr

/-- Per-record action of the scanner: `map.lookup(city)` followed by
`entry.add_new(val)` (parse the value bytes, then `add_new_value`). -/
def Citymap.addRecord (m : Citymap) (city v : List Nat) : Except Err Citymap :=
  match Citymap.lookup m city with
  | none => .error .hashOob
  | some (m₁, h, c) =>
    match parseVal v with
    | .error b => .error (.badByte b)
    | .ok val => .ok (Citymap.setCity m₁ h (c.add_new_value val))

/-- First index of the delimiter byte `;` (59), scanning from position `i`. -/
def findSemiAux : List Nat → Nat → Option Nat
  | [], _ => none
  | b :: t, i => if b = 59 then some i else findSemiAux t (i + 1)

/-- First index of the delimiter byte `;` (59) in a line. -/
def findSemi (l : List Nat) : Option Nat := findSemiAux l 0

/-- Key/value extraction of `citymap_naive`: the first `;` at index `i` splits
the buffer into `buf[0..i]` and `buf[(i+1)..(buf.len()-1)]`; no delimiter is
the fatal `panic!` surfacing the line, and an out-of-bounds slice
(`i + 1 > buf.len() - 1`) is the slice panic. -/
def splitRecord (l : List Nat) : Except Err (List Nat × List Nat) :=
  match findSemi l with
  | none => .error (.noDelim l)
  | some i =>
    if l.length < i + 2 then .error (.sliceOob l)
    else .ok (l.take i, (l.drop (i + 1)).dropLast)

/-- Model of `read_until(b'\n')`: the chunk up to and including the first
newline (or the whole stream when none remains), and the rest of the stream. -/
def readLine : List Nat → List Nat × List Nat
  | [] => ([], [])
  | b :: t =>
    if b = 10 then ([10], t)
    else
      let p := readLine t
      (b :: p.1, p.2)

theorem readLine_length_eq (s : List Nat) :
    (readLine s).1.length + (readLine s).2.length = s.length := by
  induction s with
  | nil => simp [readLine]
  | cons b t ih =>
    by_cases hb : b = 10 <;> simp [readLine, hb] <;> omega

theorem readLine_fst_ne_nil (s : List Nat) (hs : s ≠ []) : (readLine s).1 ≠ [] := by
  cases s with
  | nil => exact absurd rfl hs
  | cons b t => by_cases hb : b = 10 <;> simp [readLine, hb]

theorem readLine_snd_length_lt (s : List Nat) (hs : s ≠ []) :
    (readLine s).2.length < s.length := by
  have h1 := readLine_length_eq s
  have h2 := readLine_fst_ne_nil s hs
  have : (readLine s).1.length ≠ 0 := by
    intro h
    exact h2 (List.length_eq_zero.mp h)
  omega

/-- Model of the loop of `citymap_naive`. The buffer persists across
iterations: `read_until` appends to `buf`, a zero-byte read breaks, a buffer
equal to `[b'\n']` is skipped by `continue` WITHOUT clearing the buffer, and
a processed record clears the buffer. The loop runs on explicit fuel so that
it is structural; one unit of fuel per iteration, and every iteration but the
final one consumes at least one byte of the stream, so `s.length + 1` fuel is
sufficient (proved in `runLoop_no_fuel_error`). -/
def runLoop (m : Citymap) (buf : List Nat) (s : List Nat) : Nat → Except Err Citymap
  | 0 => .error .fuel
  | fuel + 1 =>
    if s = [] then .ok m
    else if (buf ++ (readLine s).1) = [10] then
      runLoop m (buf ++ (readLine s).1) (readLine s).2 fuel
    else
      match splitRecord (buf ++ (readLine s).1) with
      | .error e => .error e
      | .ok cv =>
        match Citymap.addRecord m cv.1 cv.2 with
        | .error e => .error e
        | .ok m' => runLoop m' [] (readLine s).2 fuel

theorem splitRecord_ne_fuel (l : List Nat) : splitRecord l ≠ .error .fuel := by
  unfold splitRecord
  cases findSemi l with
  | none => simp
  | some i =>
    simp only []
    split <;> simp

theorem addRecord_ne_fuel (m : Citymap) (c v : List Nat) :
    Citymap.addRecord m c v ≠ .error .fuel := by
  unfold Citymap.addRecord
  cases Citymap.lookup m c with
  | none => simp
  | some r =>
    obtain ⟨m₁, h, city⟩ := r
    simp only []
    cases parseVal v <;> simp

theorem runLoop_no_fuel_error (fuel : Nat) :
    ∀ (s : List Nat) (m : Citymap) (buf : List Nat), s.length < fuel →
      runLoop m buf s fuel ≠ .error .fuel := by
  induction fuel with
  | zero => intro s m buf h; omega
  | succ fuel ih =>
    intro s m buf h
    by_cases hs : s = []
    · simp [runLoop, hs]
    · have hlt : (readLine s).2.length < fuel :=
        Nat.lt_of_lt_of_le (readLine_snd_length_lt s hs) (by omega)
      by_cases hb : (buf ++ (readLine s).1) = [10]
      · simpa [runLoop, hs, hb] using ih (readLine s).2 m (buf ++ (readLine s).1) hlt
      · simp only [runLoop, if_neg hs, if_neg hb]
        split
        · rename_i e heq
          intro hc
          injection hc with h2
          subst h2
          exact splitRecord_ne_fuel _ heq
        · rename_i cv heq
          split
          · rename_i e heq2
            intro hc
            injection hc with h2
            subst h2
            exact addRecord_ne_fuel _ _ _ heq2
          · rename_i m' heq2
            exact ih (readLine s).2 m' [] hlt

/-- Model of `citymap_naive` over a bounded byte stream. -/
def citymap_naive (s : List Nat) : Except Err Citymap := runLoop [] [] s (s.length + 1)

/-- Model of `citymap_single_thread`: the naive scan of the whole file. -/
def citymap_single_thread (f : List Nat) : Except Err Citymap := citymap_naive f

/-- Candidate-range loop of `citymap_multi_threaded`: each iteration takes the
current index as the start, advances the index by `per_thread`, and caps the
end at the file size. -/
def candAux (p L : Nat) : Nat → Nat → List (Nat × Nat)
  | _, 0 => []
  | idx, n + 1 => (idx, min (idx + p) L) :: candAux p L (idx + p) n

/-- Candidate ranges for file length `L` and `N` workers, with
`per_thread = L / N`. -/
def candidates (L N : Nat) : List (Nat × Nat) := candAux (L / N) L 0 N

/-- First position of a newline byte at or after `o`, scanning at most `fuel`
bytes (the 50-byte lookahead window of the aligner) and stopping at the end
of the file. -/
def firstNl (f : List Nat) : Nat → Nat → Option Nat
  | _, 0 => none
  | o, fuel + 1 =>
    match f[o]? with
    | none => none
    | some b => if b = 10 then some o else firstNl f (o + 1) fuel

/-- Alignment of one offset: `range.start += i` / `range.end += i` for the
first newline at window offset `i`; the offset is unchanged when the window
holds no newline. -/
def alignPoint (f : List Nat) (o : Nat) : Nat :=
  match firstNl f o 50 with
  | some p => p
  | none => o

/-- Boundary alignment of `citymap_thread`: head alignment is skipped for a
range starting at 0, tail alignment always runs. -/
def alignRange (f : List Nat) (r : Nat × Nat) : Nat × Nat :=
  ((if r.1 = 0 then r.1 else alignPoint f r.1), alignPoint f r.2)

/-- Aligned ranges of all workers, in worker-index order. -/
def alignedRanges (f : List Nat) (N : Nat) : List (Nat × Nat) :=
  (candidates f.length N).map (alignRange f)

/-- The coordinator's `sort_unstable_by_key(|e| e.start)` over the reported
ranges (modelled as a deterministic sort by start). -/
def sortedRanges (f : List Nat) (N : Nat) : List (Nat × Nat) :=
  List.insertionSort (fun a b : Nat × Nat => a.1 ≤ b.1) (alignedRanges f N)

/-- The coordinator's assertion: `ranges.windows(2).all(|e| e[0].end == e[1].start)`. -/
def adjacentOK : List (Nat × Nat) → Bool
  | a :: b :: t => (a.2 == b.1) && adjacentOK (b :: t)
  | _ => true

/-- Bytes a worker reads: seek to `range.start` and `take(range.end - range.start)`. -/
def sliceOf (f : List Nat) (r : Nat × Nat) : List Nat :=
  (f.drop r.1).take (r.2 - r.1)

/-- One step of `Citymap::merge_with`: fold a right-hand entry into the map
(`entry(k).and_modify(add_result).or_insert(v)`), keeping the left key text
on a hit. -/
def Citymap.mergeOne : Citymap → Nat → (List Nat × City) → Citymap
  | [], k, v => [(k, v)]
  | (k', v') :: t, k, v =>
    if k < k' then (k, v) :: (k', v') :: t
    else if k = k' then (k', (v'.1, v'.2.add_result v.2)) :: t
    else (k', v') :: Citymap.mergeOne t k v

/-- Model of `Citymap::merge_with`: fold every entry of the right map into the
left map. -/
def Citymap.merge_with (a b : Citymap) : Citymap :=
  b.foldl (fun acc kv => Citymap.mergeOne acc kv.1 kv.2) a

/-- Per-worker scans over the aligned ranges, in worker-index order; a worker
panic propagates through `join().unwrap()`. -/
def workerMaps (f : List Nat) (rs : List (Nat × Nat)) : Except Err (List Citymap) :=
  rs.mapM (fun r => citymap_naive (sliceOf f r))

/-- Model of `citymap_multi_threaded` for worker count `N`: partition, align,
assert contiguity of the sorted reported ranges, scan each worker's slice,
and reduce the worker maps with `merge_with` in join order. -/
def citymap_multi_threaded (f : List Nat) (N : Nat) : Except Err Citymap :=
  if adjacentOK (sortedRanges f N) then
    match workerMaps f (alignedRanges f N) with
    | .error e => .error e
    | .ok [] => .error .emptyReduce
    | .ok (m :: t) => .ok (t.foldl Citymap.merge_with m)
  else .error .rangesBroken

instance instDecEqExcept {ε α : Type} [DecidableEq ε] [DecidableEq α] :
    DecidableEq (Except ε α) := fun x y =>
  match x, y with
  | .error e, .error e' =>
    if h : e = e' then isTrue (congrArg Except.error h)
    else isFalse (fun hc => h (Except.error.inj hc))
  | .error _, .ok _ => isFalse (fun hc => Except.noConfusion hc)
  | .ok _, .error _ => isFalse (fun hc => Except.noConfusion hc)
  | .ok a, .ok b =>
    if h : a = b then isTrue (congrArg Except.ok h)
    else isFalse (fun hc => h (Except.ok.inj hc))

theorem candAux_getElem? (p L : Nat) :
    ∀ (n s i : Nat), i < n →
      (candAux p L s n)[i]? = some (s + i * p, min (s + (i + 1) * p) L) := by
  intro n
  induction n with
  | zero => intro s i h; omega
  | succ n ih =>
    intro s i h
    cases i with
    | zero => simp [candAux]
    | succ i =>
      have := ih (s + p) i (by omega)
      simp only [candAux, List.getElem?_cons_succ, this]
      have h1 : s + p + i * p = s + (i + 1) * p := by ring
      have h2 : s + p + (i + 1) * p = s + (i + 1 + 1) * p := by ring
      rw [h1, h2]

theorem candAux_getLast? (p L : Nat) :
    ∀ (n s : Nat),
      (candAux p L s (n + 1)).getLast? = some (s + n * p, min (s + (n + 1) * p) L) := by
  intro n
  induction n with
  | zero => intro s; simp [candAux]
  | succ n ih =>
    intro s
    show ((s, min (s + p) L) :: candAux p L (s + p) (n + 1)).getLast? = _
    have hcons : candAux p L (s + p) (n + 1) =
        (s + p, min (s + p + p) L) :: candAux p L (s + p + p) n := rfl
    rw [hcons, List.getLast?_cons_cons, ← hcons, ih (s + p)]
    have h1 : s + p + n * p = s + (n + 1) * p := by ring
    have h2 : s + p + (n + 1) * p = s + (n + 1 + 1) * p := by ring
    rw [h1, h2]

/-- C3 (amended): the Range Partitioner assigns worker `i` the candidate range
`[i*per_thread, min((i+1)*per_thread, L))` with `per_thread = L / N`; the final
worker's candidate range end equals `N * (L / N)` (the remainder of the integer
division is NOT absorbed — those trailing bytes are outside every candidate
range). -/
theorem candidate_ranges_spec (L N i : Nat) (hi : i < N) :
    (candidates L N)[i]? = some (i * (L / N), min ((i + 1) * (L / N)) L) ∧
    (candidates L N).getLast?.map Prod.snd = some (N * (L / N)) := by
  constructor
  · have := candAux_getElem? (L / N) L N 0 i hi
    simpa using this
  · obtain ⟨n, rfl⟩ : ∃ n, N = n + 1 := ⟨N - 1, by omega⟩
    unfold candidates
    rw [candAux_getLast?]
    have hle : (n + 1) * ((L : Nat) / (n + 1)) ≤ L := by
      calc (n + 1) * (L / (n + 1)) = L / (n + 1) * (n + 1) := by ring
        _ ≤ L := Nat.div_mul_le_self L (n + 1)
    simp [Nat.min_eq_left, hle]

/-- C3 counterexample: for file length 5 and 2 workers the final worker's
candidate range is `[2, 4)` — its end is 4, not the file length 5, refuting
the claim that the final candidate end equals `L`. -/
theorem candidate_last_end_misses_file_length :
    candidates 5 2 = [(0, 2), (2, 4)] ∧
    (candidates 5 2).getLast?.map Prod.snd ≠ some 5 := by
  constructor
  · rfl
  · decide

theorem candidate_ranges_spec_witness :
    1 < 2 ∧
    ((candidates 16 2)[1]? = some (1 * (16 / 2), min ((1 + 1) * (16 / 2)) 16) ∧
      (candidates 16 2).getLast?.map Prod.snd = some (2 * (16 / 2))) :=
  ⟨by decide, candidate_ranges_spec 16 2 1 (by decide)⟩

/-- Specification-side positional value of a digit string: the usual
left-to-right decimal fold, starting from accumulator `a`. -/
def digitsValFrom (ds : List Nat) (a : Int) : Int :=
  ds.foldl (fun acc b => acc * 10 + ((b - 48 : Nat) : Int)) a

/-- Specification-side positional value of a digit string. -/
def digitsVal (ds : List Nat) : Int := digitsValFrom ds 0

/-- The wrapped digit fold actually performed by the parser loop. -/
def wfoldFrom (ds : List Nat) (a : Int) : Int :=
  ds.foldl (fun acc b => wrap64 (wrap64 (acc * 10) + ((b - 48 : Nat) : Int))) a

theorem wrap64_eq_self {x : Int} (h1 : -9223372036854775808 ≤ x)
    (h2 : x < 9223372036854775808) : wrap64 x = x := by
  unfold wrap64
  omega

theorem digitsValFrom_ge (ds : List Nat) :
    ∀ a : Int, 0 ≤ a → a ≤ digitsValFrom ds a := by
  induction ds with
  | nil => intro a _; simp [digitsValFrom]
  | cons b t ih =>
    intro a ha
    have hc : (0 : Int) ≤ ((b - 48 : Nat) : Int) := Int.ofNat_nonneg _
    have hfold : digitsValFrom (b :: t) a =
        digitsValFrom t (a * 10 + ((b - 48 : Nat) : Int)) := by
      simp [digitsValFrom]
    rw [hfold]
    have := ih (a * 10 + ((b - 48 : Nat) : Int)) (by omega)
    omega

theorem wfoldFrom_eq (ds : List Nat) :
    ∀ a : Int, 0 ≤ a → digitsValFrom ds a < 9223372036854775808 →
      wfoldFrom ds a = digitsValFrom ds a := by
  induction ds with
  | nil => intro a _ _; rfl
  | cons b t ih =>
    intro a ha hbound
    have hc : (0 : Int) ≤ ((b - 48 : Nat) : Int) := Int.ofNat_nonneg _
    have hfold : digitsValFrom (b :: t) a =
        digitsValFrom t (a * 10 + ((b - 48 : Nat) : Int)) := by
      simp [digitsValFrom]
    have hnn : (0 : Int) ≤ a * 10 + ((b - 48 : Nat) : Int) := by omega
    have hge := digitsValFrom_ge t (a * 10 + ((b - 48 : Nat) : Int)) hnn
    rw [hfold] at hbound
    have h10 : wrap64 (a * 10) = a * 10 := wrap64_eq_self (by omega) (by omega)
    have hw : wrap64 (wrap64 (a * 10) + ((b - 48 : Nat) : Int)) =
        a * 10 + ((b - 48 : Nat) : Int) := by
      rw [h10]
      exact wrap64_eq_self (by omega) (by omega)
    have hwfold : wfoldFrom (b :: t) a =
        wfoldFrom t (wrap64 (wrap64 (a * 10) + ((b - 48 : Nat) : Int))) := by
      simp [wfoldFrom]
    rw [hwfold, hw, hfold]
    exact ih _ hnn hbound

theorem parseValGo_digits_append (ds : List Nat) :
    ∀ (t : List Nat) (a : Int) (neg : Bool), (∀ b ∈ ds, 48 ≤ b ∧ b ≤ 57) →
      parseValGo (ds ++ t) a neg = parseValGo t (wfoldFrom ds a) neg := by
  induction ds with
  | nil => intro t a neg _; rfl
  | cons b ds' ih =>
    intro t a neg hds
    have hb := hds b (List.mem_cons_self b ds')
    have hstep : parseValGo ((b :: ds') ++ t) a neg =
        parseValGo (ds' ++ t) (wrap64 (wrap64 (a * 10) + ((b - 48 : Nat) : Int))) neg := by
      simp [parseValGo, hb]
    rw [hstep, ih t _ neg (fun c hcmem => hds c (List.mem_cons_of_mem b hcmem))]
    have : wfoldFrom (b :: ds') a =
        wfoldFrom ds' (wrap64 (wrap64 (a * 10) + ((b - 48 : Nat) : Int))) := by
      simp [wfoldFrom]
    rw [this]

/-- C5 (amended): for a byte slice of the form optional `-`, digits, one `.`
and exactly one digit after it, whose scaled value fits in `i64`, the parser
loop of `City::add_new` produces the represented numeric value times 10:
digits are folded as `acc = acc*10 + digit`, the `.` contributes nothing, and
the negation flag is applied at the end. -/
theorem add_new_parses_scaled_value (neg : Bool) (ds : List Nat) (d : Nat)
    (hds : ∀ b ∈ ds, 48 ≤ b ∧ b ≤ 57) (hd : 48 ≤ d ∧ d ≤ 57)
    (hfit : digitsVal ds * 10 + ((d - 48 : Nat) : Int) < 9223372036854775808) :
    parseVal ((if neg then [45] else []) ++ (ds ++ [46, d])) =
      .ok ((if neg then (-1 : Int) else 1) * (digitsVal ds * 10 + ((d - 48 : Nat) : Int))) := by
  have hF0 : (0 : Int) ≤ digitsVal ds := digitsValFrom_ge ds 0 le_rfl
  have hcd : (0 : Int) ≤ ((d - 48 : Nat) : Int) := Int.ofNat_nonneg _
  have hW : wfoldFrom ds 0 = digitsVal ds :=
    wfoldFrom_eq ds 0 le_rfl (by
      have h1 : digitsValFrom ds 0 = digitsVal ds := rfl
      rw [h1]
      omega)
  have htail : ∀ ng : Bool, parseValGo (ds ++ [46, d]) 0 ng =
      .ok (digitsVal ds * 10 + ((d - 48 : Nat) : Int), ng) := by
    intro ng
    rw [parseValGo_digits_append ds [46, d] 0 ng hds, hW]
    have h46 : parseValGo [46, d] (digitsVal ds) ng =
        parseValGo [d] (digitsVal ds) ng := by
      simp [parseValGo]
    have hdstep : parseValGo [d] (digitsVal ds) ng =
        .ok (wrap64 (wrap64 (digitsVal ds * 10) + ((d - 48 : Nat) : Int)), ng) := by
      simp [parseValGo, hd]
    have h10 : wrap64 (digitsVal ds * 10) = digitsVal ds * 10 :=
      wrap64_eq_self (by omega) (by omega)
    rw [h46, hdstep, h10, wrap64_eq_self (by omega) (by omega)]
  have hgo : ∀ (input : List Nat) (v : Int) (ng : Bool),
      parseValGo input 0 false = .ok (v, ng) →
      parseVal input = .ok (if ng then wrap64 (-v) else v) := by
    intro input v ng h
    unfold parseVal
    rw [h]
  cases neg with
  | false =>
    have h := hgo _ _ false (htail false)
    simpa using h
  | true =>
    have hneg : parseValGo ([45] ++ (ds ++ [46, d])) 0 false =
        parseValGo (ds ++ [46, d]) 0 true := by
      simp [parseValGo]
    have hv : wrap64 (-(digitsVal ds * 10 + ((d - 48 : Nat) : Int))) =
        -(digitsVal ds * 10 + ((d - 48 : Nat) : Int)) :=
      wrap64_eq_self (by omega) (by omega)
    have h := hgo _ _ true (hneg.trans (htail true))
    rw [if_pos rfl, hv] at h
    simpa using h

theorem add_new_parses_scaled_value_witness :
    (∀ b ∈ [49, 50], 48 ≤ b ∧ b ≤ 57) ∧ (48 ≤ 51 ∧ 51 ≤ 57) ∧
    digitsVal [49, 50] * 10 + ((51 - 48 : Nat) : Int) < 9223372036854775808 ∧
    parseVal ((if true then [45] else []) ++ ([49, 50] ++ [46, 51])) =
      .ok ((if true then (-1 : Int) else 1) *
        (digitsVal [49, 50] * 10 + ((51 - 48 : Nat) : Int))) :=
  ⟨by decide, by decide, by decide,
    add_new_parses_scaled_value true [49, 50] 51 (by decide) (by decide) (by decide)⟩

/-- C5 counterexample: the well-formed input `922337203685477580.8` (optional
sign, digits, one `.`, one trailing digit) represents the value whose scaled
integer is `2^63`, but the parser's `i64` accumulator wraps and produces
`-2^63`, not the represented numeric value times 10. -/
theorem parse_overflow_wraps :
    parseVal [57,50,50,51,51,55,50,48,51,54,56,53,52,55,55,53,56,48,46,56] =
      .ok (-9223372036854775808) ∧
    digitsVal [57,50,50,51,51,55,50,48,51,54,56,53,52,55,55,53,56,48] * 10 +
        ((56 - 48 : Nat) : Int) = 9223372036854775808 ∧
    (-9223372036854775808 : Int) ≠ 9223372036854775808 := by
  refine ⟨by decide, by decide, by decide⟩

theorem findSemiAux_append (key : List Nat) :
    ∀ (t : List Nat) (i : Nat), 59 ∉ key →
      findSemiAux (key ++ 59 :: t) i = some (i + key.length) := by
  induction key with
  | nil => intro t i _; simp [findSemiAux]
  | cons b key' ih =>
    intro t i hk
    have hb : b ≠ 59 := fun hc => hk (hc ▸ List.mem_cons_self b key')
    have htl : 59 ∉ key' := fun hm => hk (List.mem_cons_of_mem b hm)
    simp only [List.cons_append, findSemiAux, if_neg hb, List.append_eq]
    rw [ih t (i + 1) htl]
    simp only [Option.some.injEq, List.length_cons]
    omega

theorem findSemiAux_none (l : List Nat) : ∀ i, 59 ∉ l → findSemiAux l i = none := by
  induction l with
  | nil => intro i _; rfl
  | cons b t ih =>
    intro i h
    have hb : b ≠ 59 := fun hc => h (hc ▸ List.mem_cons_self b t)
    simp only [findSemiAux, if_neg hb]
    exact ih (i + 1) (fun hm => h (List.mem_cons_of_mem b hm))

/-- C6 (amended): for a scanned line consisting of a key without the
delimiter, the delimiter `;`, a value, and the trailing line terminator, the
scanner takes the bytes before the first `;` as the key and the bytes between
the `;` and the terminator as the value. -/
theorem scanner_splits_terminated_line (key v : List Nat) (hk : 59 ∉ key) :
    splitRecord (key ++ 59 :: (v ++ [10])) = .ok (key, v) := by
  unfold splitRecord findSemi
  rw [findSemiAux_append key (v ++ [10]) 0 hk]
  simp only [Nat.zero_add]
  rw [if_neg (by simp only [List.length_append, List.length_cons]; omega)]
  have htake : (key ++ 59 :: (v ++ [10])).take key.length = key := List.take_left key _
  have hdrop : (key ++ 59 :: (v ++ [10])).drop (key.length + 1) = v ++ [10] := by
    have h2 : key ++ 59 :: (v ++ [10]) = (key ++ [59]) ++ (v ++ [10]) := by simp
    have h3 : key.length + 1 = (key ++ [59]).length := by simp
    rw [h2, h3, List.drop_left]
  rw [htake, hdrop, List.dropLast_concat]

theorem scanner_splits_terminated_line_witness :
    (59 ∉ ([65, 66, 67] : List Nat)) ∧
    splitRecord ([65, 66, 67] ++ 59 :: ([49, 46, 50] ++ [10])) = .ok ([65, 66, 67], [49, 46, 50]) :=
  ⟨by decide, scanner_splits_terminated_line [65, 66, 67] [49, 46, 50] (by decide)⟩

/-- C6 counterexample: the scanned line `BBB;2.2` contains the delimiter but
no trailing terminator (it is the final chunk of a stream); the scanner still
removes the last byte, producing the value `2.` instead of the bytes after
the delimiter `2.2` — the removed byte is the digit `2` (50), not a
terminator. -/
theorem scanner_truncates_unterminated_line :
    splitRecord [66, 66, 66, 59, 50, 46, 50] = .ok ([66, 66, 66], [50, 46]) ∧
    ([50, 46] : List Nat) ≠ [50, 46, 50] ∧ (50 : Nat) ≠ 10 := by
  refine ⟨by decide, by decide, by decide⟩

/-- C9: `Citymap::lookup` panics (out-of-bounds indexing in `hashstr`) for
every key shorter than 3 bytes, and returns an entry for every key of at
least 3 bytes. -/
theorem lookup_requires_three_byte_key (m : Citymap) (key : List Nat) :
    (key.length < 3 → hashstr key = none ∧ Citymap.lookup m key = none) ∧
    (3 ≤ key.length → ∃ r, Citymap.lookup m key = some r) := by
  constructor
  · intro h
    match key, h with
    | [], _ => exact ⟨rfl, rfl⟩
    | [a], _ => exact ⟨rfl, rfl⟩
    | [a, b], _ => exact ⟨rfl, rfl⟩
    | a :: b :: c :: t, h => simp only [List.length_cons] at h; omega
  · intro h
    obtain ⟨a, b, c, t, rfl⟩ : ∃ a b c t, key = a :: b :: c :: t := by
      match key, h with
      | a :: b :: c :: t, _ => exact ⟨a, b, c, t, rfl⟩
      | [], h => simp at h
      | [a], h => simp at h
      | [a, b], h => simp at h
    unfold Citymap.lookup hashstr
    simp only []
    cases Citymap.findHash m
        ((a :: b :: c :: t).length % 256 + a * 256 + b * 65536 + c * 16777216) with
    | none => exact ⟨_, rfl⟩
    | some p =>
      obtain ⟨s, ci⟩ := p
      exact ⟨_, rfl⟩

theorem lookup_requires_three_byte_key_witness :
    (([65] : List Nat).length < 3 ∧
      (hashstr [65] = none ∧ Citymap.lookup [] [65] = none)) ∧
    (3 ≤ ([65, 65, 65] : List Nat).length ∧
      ∃ r, Citymap.lookup [] [65, 65, 65] = some r) :=
  ⟨⟨by decide, (lookup_requires_three_byte_key [] [65]).1 (by decide)⟩,
   ⟨by decide, (lookup_requires_three_byte_key [] [65, 65, 65]).2 (by decide)⟩⟩

/-- C10: any two key texts with the same length modulo 256 and the same first
three bytes collide in `hashstr`; concretely, scanning the records
`AAAa;1.0` and `AAAb;2.0` (distinct keys) accumulates both values into one
aggregate stored under the first-inserted key text `AAAa`. -/
theorem hash_collision_silently_merges_keys :
    (∀ s t : List Nat, 3 ≤ s.length → 3 ≤ t.length →
      s.length % 256 = t.length % 256 → s.take 3 = t.take 3 →
      hashstr s = hashstr t) ∧
    citymap_naive [65,65,65,97,59,49,46,48,10,65,65,65,98,59,50,46,48,10] =
      .ok [(1094795524, ([65, 65, 65, 97], ⟨10, 20, 30, 2⟩))] ∧
    ([65, 65, 65, 97] : List Nat) ≠ [65, 65, 65, 98] := by
  refine ⟨?_, by decide, by decide⟩
  intro s t hs ht hlen htake
  obtain ⟨a, b, c, s', rfl⟩ : ∃ a b c s', s = a :: b :: c :: s' := by
    match s, hs with
    | a :: b :: c :: s', _ => exact ⟨a, b, c, s', rfl⟩
    | [], h => simp at h
    | [a], h => simp at h
    | [a, b], h => simp at h
  obtain ⟨a', b', c', t', rfl⟩ : ∃ a b c t', t = a :: b :: c :: t' := by
    match t, ht with
    | a :: b :: c :: t', _ => exact ⟨a, b, c, t', rfl⟩
    | [], h => simp at h
    | [a], h => simp at h
    | [a, b], h => simp at h
  simp only [List.take_succ_cons, List.take_zero, List.cons.injEq, and_true] at htake
  obtain ⟨rfl, rfl, rfl⟩ := htake
  unfold hashstr
  simp only [Option.some.injEq]
  omega

theorem hash_collision_silently_merges_keys_witness :
    (3 ≤ ([65, 65, 65, 97] : List Nat).length ∧ 3 ≤ ([65, 65, 65, 98] : List Nat).length ∧
      ([65, 65, 65, 97] : List Nat).length % 256 = ([65, 65, 65, 98] : List Nat).length % 256 ∧
      ([65, 65, 65, 97] : List Nat).take 3 = ([65, 65, 65, 98] : List Nat).take 3) ∧
    hashstr [65, 65, 65, 97] = hashstr [65, 65, 65, 98] :=
  ⟨⟨by decide, by decide, by decide, by decide⟩,
    hash_collision_silently_merges_keys.1 [65, 65, 65, 97] [65, 65, 65, 98]
      (by decide) (by decide) (by decide) (by decide)⟩

theorem parseValGo_error_of_bad (v : List Nat) :
    ∀ (a : Int) (neg : Bool), (∃ b ∈ v, ¬(48 ≤ b ∧ b ≤ 57) ∧ b ≠ 45 ∧ b ≠ 46) →
      ∃ b, (¬(48 ≤ b ∧ b ≤ 57) ∧ b ≠ 45 ∧ b ≠ 46) ∧ b ∈ v ∧
        parseValGo v a neg = .error b := by
  induction v with
  | nil => intro a neg h; simp at h
  | cons b rest ih =>
    intro a neg h
    by_cases hdig : 48 ≤ b ∧ b ≤ 57
    · obtain ⟨b0, hb0mem, hb0⟩ := h
      have hb0rest : b0 ∈ rest := by
        rcases List.mem_cons.mp hb0mem with rfl | hm
        · exact absurd hdig hb0.1
        · exact hm
      obtain ⟨b', hb', hmem, heq⟩ := ih _ neg ⟨b0, hb0rest, hb0⟩
      refine ⟨b', hb', List.mem_cons_of_mem _ hmem, ?_⟩
      simp only [parseValGo, if_pos hdig]
      exact heq
    · by_cases h45 : b = 45
      · obtain ⟨b0, hb0mem, hb0⟩ := h
        have hb0rest : b0 ∈ rest := by
          rcases List.mem_cons.mp hb0mem with rfl | hm
          · exact absurd h45 hb0.2.1
          · exact hm
        obtain ⟨b', hb', hmem, heq⟩ := ih a true ⟨b0, hb0rest, hb0⟩
        refine ⟨b', hb', List.mem_cons_of_mem _ hmem, ?_⟩
        simp only [parseValGo, if_neg hdig, if_pos h45]
        exact heq
      · by_cases h46 : b = 46
        · obtain ⟨b0, hb0mem, hb0⟩ := h
          have hb0rest : b0 ∈ rest := by
            rcases List.mem_cons.mp hb0mem with rfl | hm
            · exact absurd h46 hb0.2.2
            · exact hm
          obtain ⟨b', hb', hmem, heq⟩ := ih a neg ⟨b0, hb0rest, hb0⟩
          refine ⟨b', hb', List.mem_cons_of_mem _ hmem, ?_⟩
          simp only [parseValGo, if_neg hdig, if_neg h45, if_pos h46]
          exact heq
        · refine ⟨b, ⟨hdig, h45, h46⟩, List.mem_cons_self b rest, ?_⟩
          simp only [parseValGo, if_neg hdig, if_neg h45, if_neg h46]

theorem splitRecord_noDelim (l : List Nat) (h : 59 ∉ l) :
    splitRecord l = .error (.noDelim l) := by
  unfold splitRecord findSemi
  rw [findSemiAux_none l 0 h]

theorem readLine_no_nl (l : List Nat) :
    ∀ rest, 10 ∉ l → readLine (l ++ 10 :: rest) = (l ++ [10], rest) := by
  induction l with
  | nil => intro rest _; simp [readLine]
  | cons b l' ih =>
    intro rest h
    have hb : b ≠ 10 := fun hc => h (hc ▸ List.mem_cons_self b l')
    have htl : 10 ∉ l' := fun hm => h (List.mem_cons_of_mem b hm)
    simp [readLine, hb, ih rest htl]

/-- C8: an unexpected byte in a value is a fatal parse error surfacing the
byte, a missing delimiter in a non-empty line is a fatal error surfacing the
line, and a delimiter-free first line aborts the whole scan — the remainder
of the stream is never processed (no recovery, no retry). -/
theorem format_errors_are_fatal :
    (∀ v : List Nat, (∃ b ∈ v, ¬(48 ≤ b ∧ b ≤ 57) ∧ b ≠ 45 ∧ b ≠ 46) →
      ∃ b, (¬(48 ≤ b ∧ b ≤ 57) ∧ b ≠ 45 ∧ b ≠ 46) ∧ b ∈ v ∧ parseVal v = .error b) ∧
    (∀ l : List Nat, l ≠ [] → 59 ∉ l → splitRecord l = .error (.noDelim l)) ∧
    (∀ l rest : List Nat, l ≠ [] → 59 ∉ l → 10 ∉ l →
      citymap_naive (l ++ 10 :: rest) = .error (.noDelim (l ++ [10]))) := by
  refine ⟨?_, fun l _ h => splitRecord_noDelim l h, ?_⟩
  · intro v hv
    obtain ⟨b, hb, hmem, heq⟩ := parseValGo_error_of_bad v 0 false hv
    refine ⟨b, hb, hmem, ?_⟩
    unfold parseVal
    rw [heq]
  · intro l rest hl h59 h10
    have hsne : l ++ 10 :: rest ≠ [] := by simp
    unfold citymap_naive
    simp only [runLoop, if_neg hsne]
    rw [readLine_no_nl l rest h10]
    simp only [List.nil_append]
    have hb10 : ¬(l ++ [10] = [10]) := by
      intro hc
      have := congrArg List.length hc
      simp only [List.length_append, List.length_cons, List.length_nil] at this
      exact hl (List.length_eq_zero.mp (by omega))
    rw [if_neg hb10, splitRecord_noDelim (l ++ [10]) (by
      intro hm
      rcases List.mem_append.mp hm with hm1 | hm2
      · exact h59 hm1
      · simp at hm2)]

theorem format_errors_are_fatal_witness :
    ((∃ b ∈ [49, 120], ¬(48 ≤ b ∧ b ≤ 57) ∧ b ≠ 45 ∧ b ≠ 46) ∧
      (∃ b, (¬(48 ≤ b ∧ b ≤ 57) ∧ b ≠ 45 ∧ b ≠ 46) ∧ b ∈ [49, 120] ∧
        parseVal [49, 120] = .error b)) ∧
    (([66] : List Nat) ≠ [] ∧ 59 ∉ ([66] : List Nat) ∧
      splitRecord [66] = .error (.noDelim [66])) ∧
    citymap_naive ([66, 66] ++ 10 :: [49, 50]) = .error (.noDelim ([66, 66] ++ [10])) :=
  ⟨⟨by decide, format_errors_are_fatal.1 [49, 120] (by decide)⟩,
   ⟨by decide, by decide, format_errors_are_fatal.2.1 [66] (by decide) (by decide)⟩,
   format_errors_are_fatal.2.2 [66, 66] [49, 50] (by decide) (by decide) (by decide)⟩

theorem firstNl_sound (fuel : Nat) :
    ∀ (f : List Nat) (o p : Nat), firstNl f o fuel = some p →
      o ≤ p ∧ p < o + fuel ∧ f[p]? = some 10 ∧
        ∀ j, j < p → o ≤ j → f[j]? ≠ some 10 := by
  induction fuel with
  | zero => intro f o p h; simp [firstNl] at h
  | succ fuel ih =>
    intro f o p h
    unfold firstNl at h
    cases hob : f[o]? with
    | none => rw [hob] at h; simp at h
    | some b =>
      rw [hob] at h
      by_cases hb : b = 10
      · subst hb
        simp only [if_pos] at h
        have h' : o = p := by simpa using h
        subst h'
        refine ⟨le_rfl, by omega, by rw [hob], ?_⟩
        intro j hj1 hj2
        omega
      · simp only [hb, if_false] at h
        obtain ⟨h1, h2, h3, h4⟩ := ih f (o + 1) p h
        refine ⟨by omega, by omega, h3, ?_⟩
        intro j hj1 hj2
        by_cases hjo : j = o
        · subst hjo
          rw [hob]
          intro hc
          injection hc with hc'
          exact hb hc'
        · exact h4 j hj1 (by omega)

theorem firstNl_complete (fuel : Nat) :
    ∀ (f : List Nat) (o p : Nat), o ≤ p → p < o + fuel → f[p]? = some 10 →
      (∀ j, j < p → o ≤ j → f[j]? ≠ some 10) → firstNl f o fuel = some p := by
  induction fuel with
  | zero => intro f o p h1 h2 _ _; omega
  | succ fuel ih =>
    intro f o p h1 h2 h3 h4
    have hplen : p < f.length := by
      by_contra hc
      rw [List.getElem?_eq_none (by omega)] at h3
      exact Option.noConfusion h3
    by_cases hop : o = p
    · subst hop
      unfold firstNl
      rw [h3]
      simp
    · have holt : o < p := by omega
      obtain ⟨b, hob⟩ : ∃ b, f[o]? = some b :=
        ⟨_, List.getElem?_eq_getElem (by omega)⟩
      have hb : b ≠ 10 := by
        intro hc
        exact h4 o holt le_rfl (by rw [hob, hc])
      unfold firstNl
      rw [hob]
      simp only [hb, if_false]
      exact ih f (o + 1) p (by omega) (by omega) h3 (fun j hj1 hj2 => h4 j hj1 (by omega))

theorem alignPoint_ge (f : List Nat) (o : Nat) : o ≤ alignPoint f o := by
  unfold alignPoint
  cases h : firstNl f o 50 with
  | none => exact le_rfl
  | some p => exact (firstNl_sound 50 f o p h).1

theorem alignPoint_mono (f : List Nat) {o o' : Nat} (h : o ≤ o') :
    alignPoint f o ≤ alignPoint f o' := by
  cases hfo : firstNl f o 50 with
  | none =>
    have h1 : alignPoint f o = o := by unfold alignPoint; rw [hfo]
    rw [h1]
    exact le_trans h (alignPoint_ge f o')
  | some p =>
    obtain ⟨h1, h2, h3, h4⟩ := firstNl_sound 50 f o p hfo
    have halo : alignPoint f o = p := by unfold alignPoint; rw [hfo]
    by_cases hpo : p < o'
    · rw [halo]
      exact le_trans (by omega) (alignPoint_ge f o')
    · have hfo' : firstNl f o' 50 = some p :=
        firstNl_complete 50 f o' p (by omega) (by omega) h3
          (fun j hj1 hj2 => h4 j hj1 (by omega))
      have halo' : alignPoint f o' = p := by unfold alignPoint; rw [hfo']
      rw [halo, halo']

/-- C4 (amended): for a worker whose candidate start `s` is nonzero, head
alignment sets the aligned start to `s + k`, the position OF the first
terminator in the lookahead window — not `s + k + 1`, one past it; the
worker's stream therefore begins with the terminator byte itself. -/
theorem head_alignment_lands_on_terminator (f : List Nat) (s e p : Nat)
    (h0 : s ≠ 0) (h1 : s ≤ p) (h2 : p < s + 50) (h3 : f[p]? = some 10)
    (h4 : ∀ j, j < p → s ≤ j → f[j]? ≠ some 10) :
    (alignRange f (s, e)).1 = p ∧ (alignRange f (s, e)).1 ≠ p + 1 := by
  have hap : alignPoint f s = p := by
    unfold alignPoint
    rw [firstNl_complete 50 f s p h1 h2 h3 h4]
  constructor
  · simp [alignRange, if_neg h0, hap]
  · simp [alignRange, if_neg h0, hap]

theorem head_alignment_lands_on_terminator_witness :
    ((8 : Nat) ≠ 0 ∧ (8 : Nat) ≤ 15 ∧ (15 : Nat) < 8 + 50 ∧
      ([65,65,65,59,49,46,49,10,66,66,66,59,50,46,50,10] : List Nat)[15]? = some 10 ∧
      (∀ j, j < 15 → 8 ≤ j →
        ([65,65,65,59,49,46,49,10,66,66,66,59,50,46,50,10] : List Nat)[j]? ≠ some 10)) ∧
    ((alignRange [65,65,65,59,49,46,49,10,66,66,66,59,50,46,50,10] (8, 16)).1 = 15 ∧
      (alignRange [65,65,65,59,49,46,49,10,66,66,66,59,50,46,50,10] (8, 16)).1 ≠ 15 + 1) :=
  ⟨⟨by decide, by decide, by decide, by decide, by decide⟩,
    head_alignment_lands_on_terminator [65,65,65,59,49,46,49,10,66,66,66,59,50,46,50,10]
      8 16 15 (by decide) (by decide) (by decide) (by decide) (by decide)⟩

/-- C4 counterexample: in the file `AAA;1.1\nBBB;2.2\n` the worker whose
candidate range starts at `s = 8` finds the first terminator at window offset
`k = 7` (absolute position 15); the code sets the aligned start to
`8 + 7 = 15`, not `s + k + 1 = 16` as the claim states. -/
theorem head_alignment_off_by_one :
    (alignRange [65,65,65,59,49,46,49,10,66,66,66,59,50,46,50,10] (8, 16)).1 = 8 + 7 ∧
    ([65,65,65,59,49,46,49,10,66,66,66,59,50,46,50,10] : List Nat)[8 + 7]? = some 10 ∧
    (alignRange [65,65,65,59,49,46,49,10,66,66,66,59,50,46,50,10] (8, 16)).1 ≠ 8 + 7 + 1 := by
  refine ⟨by decide, by decide, by decide⟩

theorem adjacentOK_eq_chain' (l : List (Nat × Nat)) :
    adjacentOK l = true ↔ List.Chain' (fun a b => a.2 = b.1) l := by
  induction l with
  | nil => simp [adjacentOK]
  | cons a t ih =>
    cases t with
    | nil => simp [adjacentOK]
    | cons b t' =>
      rw [show adjacentOK (a :: b :: t') = ((a.2 == b.1) && adjacentOK (b :: t')) from rfl,
        List.chain'_cons, Bool.and_eq_true, beq_iff_eq, ih]

theorem candAux_chain (f : List Nat) (p L : Nat) (hp : 1 ≤ p) :
    ∀ (n s : Nat), s + n * p ≤ L →
      List.Chain' (fun a b => (alignRange f a).2 = (alignRange f b).1) (candAux p L s n) := by
  intro n
  induction n with
  | zero => intro s _; simp [candAux]
  | succ n ih =>
    intro s hle
    rw [show candAux p L s (n + 1) = (s, min (s + p) L) :: candAux p L (s + p) n from rfl]
    rw [List.chain'_cons']
    constructor
    · intro y hy
      cases n with
      | zero => simp [candAux] at hy
      | succ n' =>
        rw [show candAux p L (s + p) (n' + 1) =
            (s + p, min (s + p + p) L) :: candAux p L (s + p + p) n' from rfl] at hy
        simp only [List.head?_cons, Option.mem_def, Option.some.injEq] at hy
        subst hy
        have hsp : s + p ≤ L := by
          have h2 : (n' + 1 + 1) * p = p + (n' + 1) * p := by ring
          rw [h2] at hle
          omega
        have hpr1 : (alignRange f (s, min (s + p) L)).2 =
            alignPoint f (min (s + p) L) := rfl
        have hpr2 : (alignRange f (s + p, min (s + p + p) L)).1 =
            if s + p = 0 then s + p else alignPoint f (s + p) := rfl
        rw [hpr1, hpr2, Nat.min_eq_left hsp, if_neg (show ¬(s + p = 0) by omega)]
    · exact ih (s + p) (by
        have h2 : s + p + n * p = s + (n + 1) * p := by ring
        rw [h2]
        exact hle)

theorem candAux_starts_chain (f : List Nat) (p L : Nat) :
    ∀ (n s : Nat),
      List.Chain' (fun a b => (alignRange f a).1 ≤ (alignRange f b).1) (candAux p L s n) := by
  intro n
  induction n with
  | zero => intro s; simp [candAux]
  | succ n ih =>
    intro s
    rw [show candAux p L s (n + 1) = (s, min (s + p) L) :: candAux p L (s + p) n from rfl]
    rw [List.chain'_cons']
    refine ⟨?_, ih (s + p)⟩
    intro y hy
    cases n with
    | zero => simp [candAux] at hy
    | succ n' =>
      rw [show candAux p L (s + p) (n' + 1) =
          (s + p, min (s + p + p) L) :: candAux p L (s + p + p) n' from rfl] at hy
      simp only [List.head?_cons, Option.mem_def, Option.some.injEq] at hy
      subst hy
      by_cases hs : s = 0
      · simp [alignRange, hs]
      · have hnz : ¬(s + p = 0) := by omega
        simp only [alignRange, if_neg hs, if_neg hnz]
        exact alignPoint_mono f (by omega)

theorem alignedRanges_adjacent (f : List Nat) (N : Nat) (hp : 1 ≤ f.length / N) :
    adjacentOK (alignedRanges f N) = true := by
  rw [alignedRanges, candidates, adjacentOK_eq_chain', List.chain'_map]
  apply candAux_chain f (f.length / N) f.length hp N 0
  rw [Nat.zero_add]
  calc N * (f.length / N) = f.length / N * N := by ring
    _ ≤ f.length := Nat.div_mul_le_self _ _

/-- Sorted-by-start predicate on range lists: every list the coordinator's
`sort_unstable_by_key(|e| e.start)` can return satisfies it, and with tied
starts more than one permutation of the reported ranges does. -/
def sortedByStart (l : List (Nat × Nat)) : Prop :=
  List.Pairwise (fun a b : Nat × Nat => a.1 ≤ b.1) l

instance (l : List (Nat × Nat)) : Decidable (sortedByStart l) :=
  inferInstanceAs (Decidable (List.Pairwise _ l))

theorem alignedRanges_sortedByStart (f : List Nat) (N : Nat) :
    sortedByStart (alignedRanges f N) := by
  haveI : IsTrans (Nat × Nat) (fun a b : Nat × Nat => a.1 ≤ b.1) :=
    ⟨fun _ _ _ hab hbc => le_trans hab hbc⟩
  show List.Pairwise (fun a b : Nat × Nat => a.1 ≤ b.1) (alignedRanges f N)
  rw [← List.chain'_iff_pairwise, alignedRanges, candidates, List.chain'_map]
  exact candAux_starts_chain f (f.length / N) f.length N 0

theorem sortedRanges_eq_alignedRanges (f : List Nat) (N : Nat) :
    sortedRanges f N = alignedRanges f N :=
  List.Sorted.insertionSort_eq (alignedRanges_sortedByStart f N)

theorem sorted_perm_eq_of_distinct :
    ∀ (l₁ l₂ : List (Nat × Nat)), l₁.Perm l₂ →
      List.Pairwise (fun a b : Nat × Nat => a.1 ≤ b.1) l₁ →
      List.Pairwise (fun a b : Nat × Nat => a.1 ≤ b.1) l₂ →
      List.Pairwise (fun a b : Nat × Nat => a.1 ≠ b.1) l₁ →
      l₁ = l₂ := by
  intro l₁
  induction l₁ with
  | nil =>
    intro l₂ hperm _ _ _
    exact (List.Perm.eq_nil hperm.symm).symm
  | cons a t₁ ih =>
    intro l₂ hperm hs₁ hs₂ hd₁
    cases l₂ with
    | nil => exact absurd (List.Perm.eq_nil hperm) (List.cons_ne_nil a t₁)
    | cons b t₂ =>
      rw [List.pairwise_cons] at hs₁ hs₂ hd₁
      obtain ⟨ha1, hs₁'⟩ := hs₁
      obtain ⟨hb2, hs₂'⟩ := hs₂
      obtain ⟨hd1h, hd₁'⟩ := hd₁
      have hab : a = b := by
        by_contra hne
        have hbmem : b ∈ a :: t₁ := hperm.mem_iff.mpr (List.mem_cons_self b t₂)
        have hamem : a ∈ b :: t₂ := hperm.mem_iff.mp (List.mem_cons_self a t₁)
        rcases List.mem_cons.mp hbmem with heq | hbt
        · exact hne heq.symm
        · rcases List.mem_cons.mp hamem with heq | hat
          · exact hne heq
          · have h1 : a.1 ≤ b.1 := ha1 b hbt
            have h2 : a.1 ≠ b.1 := hd1h b hbt
            have h3 : b.1 ≤ a.1 := hb2 a hat
            omega
      subst hab
      rw [ih t₂ hperm.cons_inv hs₁' hs₂' hd₁']

theorem alignedRanges_head_start_zero (f : List Nat) (n : Nat) :
    ∃ e, (alignedRanges f (n + 1)).head? = some e ∧ e.1 = 0 := by
  refine ⟨alignRange f (0, min (0 + f.length / (n + 1)) f.length), rfl, ?_⟩
  simp [alignRange]

theorem distinct_starts_per_thread_pos (f : List Nat) (N : Nat) (h2 : 2 ≤ N)
    (hdist : List.Pairwise (fun a b : Nat × Nat => a.1 ≠ b.1) (alignedRanges f N)) :
    1 ≤ f.length / N := by
  by_contra hc
  have hp0 : f.length / N = 0 := Nat.lt_one_iff.mp (Nat.not_le.mp hc)
  obtain ⟨n, rfl⟩ : ∃ n, N = n + 2 := ⟨N - 2, by omega⟩
  rw [alignedRanges, candidates, hp0] at hdist
  rw [show candAux 0 f.length 0 (n + 2) =
      (0, min 0 f.length) :: (0, min 0 f.length) :: candAux 0 f.length 0 n from rfl,
    List.map_cons, List.map_cons, List.pairwise_cons] at hdist
  exact hdist.1 (alignRange f (0, min 0 f.length)) (List.mem_cons_self _ _) rfl

/-- C2 (amended): the coordinator's sorted range list is some permutation of
the reported aligned ranges that is sorted by start (channel arrival order
and `sort_unstable_by_key` leave the order of tied starts nondeterministic).
For every worker count `N ≥ 1` and every such outcome the first range starts
at 0, and — provided the aligned starts are pairwise distinct — the outcome
is pairwise adjacent (`ranges[i].end = ranges[i+1].start`), which is exactly
what the fatal assertion checks, so the assertion passes; the last range's
end is NOT required to equal the file length. With tied aligned starts a
legal outcome can fail the assertion, as the final conjunct shows on the
12-byte file of eleven `A` bytes and a newline with 3 workers. -/
theorem aligned_ranges_contiguous :
    (∀ (f : List Nat) (N : Nat) (l : List (Nat × Nat)), 1 ≤ N →
      l.Perm (alignedRanges f N) → sortedByStart l →
      l.head?.map Prod.fst = some 0 ∧
      (List.Pairwise (fun a b : Nat × Nat => a.1 ≠ b.1) (alignedRanges f N) →
        adjacentOK l = true)) ∧
    (([(0, 11), (11, 12), (11, 11)] : List (Nat × Nat)).Perm
        (alignedRanges [65,65,65,65,65,65,65,65,65,65,65,10] 3) ∧
      sortedByStart [(0, 11), (11, 12), (11, 11)] ∧
      adjacentOK [(0, 11), (11, 12), (11, 11)] = false) := by
  constructor
  · intro f N l h1 hperm hsort
    constructor
    · obtain ⟨n, rfl⟩ : ∃ n, N = n + 1 := ⟨N - 1, by omega⟩
      obtain ⟨e, hhead, he0⟩ := alignedRanges_head_start_zero f n
      have hmem : e ∈ alignedRanges f (n + 1) := List.mem_of_mem_head? hhead
      have hmeml : e ∈ l := hperm.mem_iff.mpr hmem
      cases l with
      | nil => simp at hmeml
      | cons c t =>
        have hsort' : List.Pairwise (fun a b : Nat × Nat => a.1 ≤ b.1) (c :: t) := hsort
        have hc : ∀ y ∈ t, c.1 ≤ y.1 := (List.pairwise_cons.mp hsort').1
        have hc0 : c.1 = 0 := by
          rcases List.mem_cons.mp hmeml with heq | hmt
          · rw [← heq]
            exact he0
          · have h3 := hc e hmt
            omega
        simp [hc0]
    · intro hdist
      have hdl : List.Pairwise (fun a b : Nat × Nat => a.1 ≠ b.1) l :=
        (List.Perm.pairwise_iff (fun hxy => Ne.symm hxy) hperm).mpr hdist
      have hleq : l = alignedRanges f N :=
        sorted_perm_eq_of_distinct l _ hperm hsort (alignedRanges_sortedByStart f N) hdl
      rw [hleq]
      by_cases hN1 : N = 1
      · subst hN1
        rfl
      · exact alignedRanges_adjacent f N
          (distinct_starts_per_thread_pos f N (by omega) hdist)
  · refine ⟨by decide, by decide, by decide⟩

theorem aligned_ranges_contiguous_witness :
    (1 ≤ 2 ∧
      ([(0, 15), (15, 16)] : List (Nat × Nat)).Perm
        (alignedRanges [65,65,65,59,49,46,49,10,66,66,66,59,50,46,50,10] 2) ∧
      sortedByStart [(0, 15), (15, 16)]) ∧
    (([(0, 15), (15, 16)] : List (Nat × Nat)).head?.map Prod.fst = some 0 ∧
      (List.Pairwise (fun a b : Nat × Nat => a.1 ≠ b.1)
          (alignedRanges [65,65,65,59,49,46,49,10,66,66,66,59,50,46,50,10] 2) →
        adjacentOK [(0, 15), (15, 16)] = true)) :=
  ⟨⟨by decide, by decide, by decide⟩,
    aligned_ranges_contiguous.1 [65,65,65,59,49,46,49,10,66,66,66,59,50,46,50,10] 2
      [(0, 15), (15, 16)] (by decide) (by decide) (by decide)⟩

/-- C2 counterexample: on the 17-byte file `AAAA;1.1\nBBB;2.2\n` with 2
workers the sorted aligned ranges are `[0,8), [8,16)` — the adjacency
assertion passes, yet the last range's end is 16, not the file length 17, so
the ranges do NOT form a partition of `[0, file_length)` and no assertion
fires. -/
theorem aligned_ranges_not_partition_of_file :
    sortedRanges [65,65,65,65,59,49,46,49,10,66,66,66,59,50,46,50,10] 2 = [(0, 8), (8, 16)] ∧
    adjacentOK (sortedRanges [65,65,65,65,59,49,46,49,10,66,66,66,59,50,46,50,10] 2) = true ∧
    ([65,65,65,65,59,49,46,49,10,66,66,66,59,50,46,50,10] : List Nat).length = 17 ∧
    (sortedRanges [65,65,65,65,59,49,46,49,10,66,66,66,59,50,46,50,10] 2).getLast?.map
      Prod.snd ≠ some 17 := by
  refine ⟨by decide, by decide, by decide, by decide⟩

/-- C1: on the 16-byte file `AAA;1.1\nBBB;2.2\n` with 2 workers, the
multi-threaded pipeline produces a table whose `BBB` aggregate holds 2
(the worker's tail-aligned slice ends before the final newline, so its last
line is unterminated and the `buf.len()-1` slicing drops the final digit),
while the single-threaded scan holds 22; the two tables differ. -/
theorem multi_threaded_differs_from_single_thread :
    citymap_multi_threaded [65,65,65,59,49,46,49,10,66,66,66,59,50,46,50,10] 2 =
      .ok [(1094795523, ([65,65,65], ⟨11, 11, 11, 1⟩)),
           (1111638531, ([66,66,66], ⟨2, 2, 2, 1⟩))] ∧
    citymap_single_thread [65,65,65,59,49,46,49,10,66,66,66,59,50,46,50,10] =
      .ok [(1094795523, ([65,65,65], ⟨11, 11, 11, 1⟩)),
           (1111638531, ([66,66,66], ⟨22, 22, 22, 1⟩))] ∧
    citymap_multi_threaded [65,65,65,59,49,46,49,10,66,66,66,59,50,46,50,10] 2 ≠
      citymap_single_thread [65,65,65,59,49,46,49,10,66,66,66,59,50,46,50,10] := by
  refine ⟨by decide, by decide, by decide⟩

/-- Pointwise combination of two optional map entries, as performed by
`merge_with` at one hash key: the left entry's key text wins on a hit and the
aggregates are combined with `add_result`. -/
def combineKV :
    Option (List Nat × City) → Option (List Nat × City) → Option (List Nat × City)
  | none, w => w
  | some v, none => some v
  | some v, some w => some (v.1, v.2.add_result w.2)

/-- Representation invariant of the `Citymap` model: hash keys strictly
increase along the association list. -/
def SortedKeys (m : Citymap) : Prop := List.Pairwise (fun a b => a.1 < b.1) m

instance (m : Citymap) : Decidable (SortedKeys m) :=
  inferInstanceAs (Decidable (List.Pairwise _ m))

theorem combineKV_none_right (x : Option (List Nat × City)) : combineKV x none = x := by
  cases x <;> rfl

theorem findHash_lt_none (m : Citymap) :
    ∀ j, (∀ e ∈ m, j < e.1) → Citymap.findHash m j = none := by
  induction m with
  | nil => intro j _; rfl
  | cons a t ih =>
    intro j h
    obtain ⟨k, v⟩ := a
    have hj : j < k := h (k, v) (List.mem_cons_self _ _)
    unfold Citymap.findHash
    rw [if_neg (by omega)]
    exact ih j (fun e he => h e (List.mem_cons_of_mem _ he))

theorem mem_mergeOne (m : Citymap) (k : Nat) (v : List Nat × City) :
    ∀ e ∈ Citymap.mergeOne m k v, e ∈ m ∨ e.1 = k := by
  induction m with
  | nil =>
    intro e he
    simp [Citymap.mergeOne] at he
    exact Or.inr (by rw [he])
  | cons a t ih =>
    intro e he
    obtain ⟨k', v'⟩ := a
    unfold Citymap.mergeOne at he
    by_cases h1 : k < k'
    · rw [if_pos h1] at he
      rcases List.mem_cons.mp he with rfl | hm
      · exact Or.inr rfl
      · exact Or.inl hm
    · rw [if_neg h1] at he
      by_cases h2 : k = k'
      · rw [if_pos h2] at he
        rcases List.mem_cons.mp he with rfl | hm
        · exact Or.inr h2.symm
        · exact Or.inl (List.mem_cons_of_mem _ hm)
      · rw [if_neg h2] at he
        rcases List.mem_cons.mp he with rfl | hm
        · exact Or.inl (List.mem_cons_self _ _)
        · rcases ih e hm with hm' | hk
          · exact Or.inl (List.mem_cons_of_mem _ hm')
          · exact Or.inr hk

theorem sortedKeys_mergeOne (m : Citymap) (k : Nat) (v : List Nat × City) :
    SortedKeys m → SortedKeys (Citymap.mergeOne m k v) := by
  induction m with
  | nil => intro _; simp [Citymap.mergeOne, SortedKeys]
  | cons a t ih =>
    intro hs
    obtain ⟨k', v'⟩ := a
    rw [SortedKeys, List.pairwise_cons] at hs
    obtain ⟨hhead, htail⟩ := hs
    unfold Citymap.mergeOne
    by_cases h1 : k < k'
    · rw [if_pos h1]
      rw [SortedKeys, List.pairwise_cons]
      refine ⟨?_, List.pairwise_cons.mpr ⟨hhead, htail⟩⟩
      intro e he
      rcases List.mem_cons.mp he with rfl | hm
      · exact h1
      · exact lt_trans h1 (hhead e hm)
    · rw [if_neg h1]
      by_cases h2 : k = k'
      · rw [if_pos h2]
        exact List.pairwise_cons.mpr ⟨hhead, htail⟩
      · rw [if_neg h2]
        refine List.pairwise_cons.mpr ⟨?_, ih htail⟩
        intro e he
        rcases mem_mergeOne t k v e he with hm | hk
        · exact hhead e hm
        · rw [hk]
          omega

theorem findHash_mergeOne :
    ∀ (m : Citymap) (k : Nat) (v : List Nat × City) (j : Nat), SortedKeys m →
      Citymap.findHash (Citymap.mergeOne m k v) j =
        if j = k then combineKV (Citymap.findHash m k) (some v)
        else Citymap.findHash m j := by
  intro m
  induction m with
  | nil =>
    intro k v j _
    by_cases hjk : j = k <;> simp [Citymap.mergeOne, Citymap.findHash, combineKV, hjk]
  | cons a t ih =>
    intro k v j hs
    obtain ⟨k', v'⟩ := a
    rw [SortedKeys, List.pairwise_cons] at hs
    obtain ⟨hhead, htail⟩ := hs
    unfold Citymap.mergeOne
    by_cases h1 : k < k'
    · rw [if_pos h1]
      have hknone : Citymap.findHash ((k', v') :: t) k = none := by
        apply findHash_lt_none
        intro e he
        rcases List.mem_cons.mp he with rfl | hm
        · exact h1
        · exact lt_trans h1 (hhead e hm)
      by_cases hjk : j = k
      · subst hjk
        rw [if_pos rfl, hknone,
          show Citymap.findHash ((j, v) :: (k', v') :: t) j = some v from by
            simp [Citymap.findHash]]
        rfl
      · rw [if_neg hjk,
          show Citymap.findHash ((k, v) :: (k', v') :: t) j =
            Citymap.findHash ((k', v') :: t) j from by simp [Citymap.findHash, hjk]]
    · rw [if_neg h1]
      by_cases h2 : k = k'
      · rw [if_pos h2]
        subst h2
        by_cases hjk : j = k
        · subst hjk
          rw [if_pos rfl,
            show Citymap.findHash ((j, (v'.1, v'.2.add_result v.2)) :: t) j =
              some (v'.1, v'.2.add_result v.2) from by simp [Citymap.findHash],
            show Citymap.findHash ((j, v') :: t) j = some v' from by
              simp [Citymap.findHash]]
          rfl
        · rw [if_neg hjk,
            show Citymap.findHash ((k, (v'.1, v'.2.add_result v.2)) :: t) j =
              Citymap.findHash t j from by simp [Citymap.findHash, hjk],
            show Citymap.findHash ((k, v') :: t) j = Citymap.findHash t j from by
              simp [Citymap.findHash, hjk]]
      · rw [if_neg h2]
        have hk'k : k' < k := by omega
        by_cases hjk' : j = k'
        · subst hjk'
          have hne : ¬(j = k) := by omega
          simp [Citymap.findHash, hne]
        · rw [show Citymap.findHash ((k', v') :: Citymap.mergeOne t k v) j =
              Citymap.findHash (Citymap.mergeOne t k v) j from by
            simp [Citymap.findHash, hjk']]
          rw [ih k v j htail]
          by_cases hjk : j = k
          · subst hjk
            rw [if_pos rfl, if_pos rfl,
              show Citymap.findHash ((k', v') :: t) j = Citymap.findHash t j from by
                simp [Citymap.findHash, hjk']]
          · rw [if_neg hjk, if_neg hjk,
              show Citymap.findHash ((k', v') :: t) j = Citymap.findHash t j from by
                simp [Citymap.findHash, hjk']]

theorem sortedKeys_merge_with :
    ∀ (b a : Citymap), SortedKeys a → SortedKeys (Citymap.merge_with a b) := by
  intro b
  induction b with
  | nil => intro a h; exact h
  | cons kv t ih =>
    intro a h
    exact ih (Citymap.mergeOne a kv.1 kv.2) (sortedKeys_mergeOne a kv.1 kv.2 h)

theorem findHash_merge_with :
    ∀ (b a : Citymap) (j : Nat), SortedKeys a → SortedKeys b →
      Citymap.findHash (Citymap.merge_with a b) j =
        combineKV (Citymap.findHash a j) (Citymap.findHash b j) := by
  intro b
  induction b with
  | nil =>
    intro a j _ _
    rw [show Citymap.merge_with a [] = a from rfl,
      show Citymap.findHash ([] : Citymap) j = none from rfl, combineKV_none_right]
  | cons kv t ih =>
    intro a j hsa hsb
    obtain ⟨k, v⟩ := kv
    rw [SortedKeys, List.pairwise_cons] at hsb
    obtain ⟨hhead, htail⟩ := hsb
    rw [show Citymap.merge_with a ((k, v) :: t) =
        Citymap.merge_with (Citymap.mergeOne a k v) t from rfl]
    rw [ih (Citymap.mergeOne a k v) j (sortedKeys_mergeOne a k v hsa) htail]
    rw [findHash_mergeOne a k v j hsa]
    by_cases hjk : j = k
    · subst hjk
      rw [if_pos rfl]
      have htnone : Citymap.findHash t j = none :=
        findHash_lt_none t j (fun e he => hhead e he)
      rw [htnone, combineKV_none_right]
      rw [show Citymap.findHash ((j, v) :: t) j = some v from by
        simp [Citymap.findHash]]
    · rw [if_neg hjk]
      rw [show Citymap.findHash ((k, v) :: t) j = Citymap.findHash t j from by
        simp [Citymap.findHash, hjk]]

theorem findHash_some_mem :
    ∀ (m : Citymap) (j : Nat) (v), Citymap.findHash m j = some v → (j, v) ∈ m := by
  intro m
  induction m with
  | nil => intro j v h; simp [Citymap.findHash] at h
  | cons a t ih =>
    intro j v h
    obtain ⟨k, w⟩ := a
    unfold Citymap.findHash at h
    by_cases hjk : j = k
    · rw [if_pos hjk] at h
      injection h with h'
      subst hjk
      subst h'
      exact List.mem_cons_self _ _
    · rw [if_neg hjk] at h
      exact List.mem_cons_of_mem _ (ih j v h)

theorem sorted_findHash_ext :
    ∀ (a b : Citymap), SortedKeys a → SortedKeys b →
      (∀ j, Citymap.findHash a j = Citymap.findHash b j) → a = b := by
  intro a
  induction a with
  | nil =>
    intro b _ _ hext
    cases b with
    | nil => rfl
    | cons kb tb =>
      obtain ⟨k, v⟩ := kb
      have h := hext k
      simp [Citymap.findHash] at h
  | cons ka ta ih =>
    intro b hsa hsb hext
    obtain ⟨k, v⟩ := ka
    cases b with
    | nil =>
      have h := hext k
      simp [Citymap.findHash] at h
    | cons kb tb =>
      obtain ⟨k', v'⟩ := kb
      rw [SortedKeys, List.pairwise_cons] at hsa hsb
      obtain ⟨hha, hta⟩ := hsa
      obtain ⟨hhb, htb⟩ := hsb
      have hkk' : k = k' := by
        by_contra hne
        have h1 : Citymap.findHash ((k', v') :: tb) k = some v := by
          rw [← hext k]
          simp [Citymap.findHash]
        have h2 : Citymap.findHash ((k, v) :: ta) k' = some v' := by
          rw [hext k']
          simp [Citymap.findHash]
        rw [show Citymap.findHash ((k', v') :: tb) k =
            if k = k' then some v' else Citymap.findHash tb k from rfl,
          if_neg hne] at h1
        have hk'k : k' < k := hhb (k, v) (findHash_some_mem tb k v h1)
        rw [show Citymap.findHash ((k, v) :: ta) k' =
            if k' = k then some v else Citymap.findHash ta k' from rfl,
          if_neg (by omega)] at h2
        have : k < k' := hha (k', v') (findHash_some_mem ta k' v' h2)
        omega
      subst hkk'
      have hvv' : v = v' := by
        have h := hext k
        simpa [Citymap.findHash] using h
      subst hvv'
      congr 1
      apply ih tb hta htb
      intro j
      by_cases hjk : j = k
      · subst hjk
        rw [findHash_lt_none ta j hha, findHash_lt_none tb j hhb]
      · have h := hext j
        simpa [Citymap.findHash, hjk] using h

theorem wrap64_add_left (a b : Int) : wrap64 (wrap64 a + b) = wrap64 (a + b) := by
  unfold wrap64
  omega

theorem wrap64_add_right (a b : Int) : wrap64 (a + wrap64 b) = wrap64 (a + b) := by
  unfold wrap64
  omega

theorem wrap32_add_left (a b : Nat) : wrap32 (wrap32 a + b) = wrap32 (a + b) := by
  unfold wrap32
  omega

theorem wrap32_add_right (a b : Nat) : wrap32 (a + wrap32 b) = wrap32 (a + b) := by
  unfold wrap32
  omega

theorem add_result_comm (x y : City) : x.add_result y = y.add_result x := by
  unfold City.add_result
  congr 1
  · exact min_comm _ _
  · exact max_comm _ _
  · rw [Int.add_comm]
  · rw [Nat.add_comm]

theorem add_result_assoc (x y z : City) :
    (x.add_result y).add_result z = x.add_result (y.add_result z) := by
  unfold City.add_result
  congr 1
  · exact min_assoc _ _ _
  · exact max_assoc _ _ _
  · rw [wrap64_add_left, wrap64_add_right, Int.add_assoc]
  · rw [wrap32_add_left, wrap32_add_right, Nat.add_assoc]

theorem combineKV_assoc (x y z : Option (List Nat × City)) :
    combineKV (combineKV x y) z = combineKV x (combineKV y z) := by
  cases x <;> cases y <;> cases z <;> simp [combineKV, add_result_assoc]

/-- C7 (amended): table merge is associative; it is commutative on the
aggregate values, and full-table commutativity holds whenever any two
entries stored under the same hash digest carry the same key text — for
distinct colliding key texts the merged tables differ in the stored text. -/
theorem merge_with_assoc_comm :
    (∀ a b c : Citymap, SortedKeys a → SortedKeys b → SortedKeys c →
      Citymap.merge_with (Citymap.merge_with a b) c =
        Citymap.merge_with a (Citymap.merge_with b c)) ∧
    (∀ a b : Citymap, SortedKeys a → SortedKeys b →
      (∀ h s c s' c', Citymap.findHash a h = some (s, c) →
        Citymap.findHash b h = some (s', c') → s = s') →
      Citymap.merge_with a b = Citymap.merge_with b a) := by
  constructor
  · intro a b c hsa hsb hsc
    apply sorted_findHash_ext
    · exact sortedKeys_merge_with c _ (sortedKeys_merge_with b a hsa)
    · exact sortedKeys_merge_with _ a hsa
    · intro j
      rw [findHash_merge_with c _ j (sortedKeys_merge_with b a hsa) hsc,
        findHash_merge_with b a j hsa hsb,
        findHash_merge_with _ a j hsa (sortedKeys_merge_with c b hsb),
        findHash_merge_with c b j hsb hsc,
        combineKV_assoc]
  · intro a b hsa hsb hcompat
    apply sorted_findHash_ext
    · exact sortedKeys_merge_with b a hsa
    · exact sortedKeys_merge_with a b hsb
    · intro j
      rw [findHash_merge_with b a j hsa hsb, findHash_merge_with a b j hsb hsa]
      cases hfa : Citymap.findHash a j with
      | none => cases hfb : Citymap.findHash b j <;> simp [combineKV]
      | some va =>
        cases hfb : Citymap.findHash b j with
        | none => simp [combineKV]
        | some vb =>
          obtain ⟨sa, ca⟩ := va
          obtain ⟨sb, cb⟩ := vb
          have hss : sa = sb := hcompat j sa ca sb cb hfa hfb
          simp [combineKV, hss, add_result_comm]

theorem merge_with_assoc_comm_witness :
    (SortedKeys [(1, ([65, 65, 65], ⟨10, 10, 10, 1⟩))] ∧
      SortedKeys [(2, ([66, 66, 66], ⟨20, 20, 20, 1⟩))] ∧
      SortedKeys [(3, ([67, 67, 67], ⟨30, 30, 30, 1⟩))] ∧
      Citymap.merge_with
          (Citymap.merge_with [(1, ([65, 65, 65], ⟨10, 10, 10, 1⟩))]
            [(2, ([66, 66, 66], ⟨20, 20, 20, 1⟩))])
          [(3, ([67, 67, 67], ⟨30, 30, 30, 1⟩))] =
        Citymap.merge_with [(1, ([65, 65, 65], ⟨10, 10, 10, 1⟩))]
          (Citymap.merge_with [(2, ([66, 66, 66], ⟨20, 20, 20, 1⟩))]
            [(3, ([67, 67, 67], ⟨30, 30, 30, 1⟩))])) ∧
    Citymap.merge_with [(1, ([65, 65, 65], ⟨10, 10, 10, 1⟩))]
        [(2, ([66, 66, 66], ⟨20, 20, 20, 1⟩))] =
      Citymap.merge_with [(2, ([66, 66, 66], ⟨20, 20, 20, 1⟩))]
        [(1, ([65, 65, 65], ⟨10, 10, 10, 1⟩))] :=
  ⟨⟨by decide, by decide, by decide,
    merge_with_assoc_comm.1 [(1, ([65, 65, 65], ⟨10, 10, 10, 1⟩))]
      [(2, ([66, 66, 66], ⟨20, 20, 20, 1⟩))] [(3, ([67, 67, 67], ⟨30, 30, 30, 1⟩))]
      (by decide) (by decide) (by decide)⟩,
    merge_with_assoc_comm.2 [(1, ([65, 65, 65], ⟨10, 10, 10, 1⟩))]
      [(2, ([66, 66, 66], ⟨20, 20, 20, 1⟩))] (by decide) (by decide)
      (by
        intro h s c s' c' h1 h2
        by_cases hh : h = 1
        · subst hh
          simp [Citymap.findHash] at h2
        · simp [Citymap.findHash, hh] at h1)⟩

/-- C7 counterexample: the tables built from the single-record sets
`AAAa;1.0` and `AAAb;2.0` store distinct key texts under the same hash;
merging them in the two orders yields tables that differ (in the stored key
text), so `merge_with` is not commutative as claimed. -/
theorem merge_with_not_commutative :
    citymap_naive [65,65,65,97,59,49,46,48,10] =
      .ok [(1094795524, ([65, 65, 65, 97], ⟨10, 10, 10, 1⟩))] ∧
    citymap_naive [65,65,65,98,59,50,46,48,10] =
      .ok [(1094795524, ([65, 65, 65, 98], ⟨20, 20, 20, 1⟩))] ∧
    Citymap.merge_with [(1094795524, ([65, 65, 65, 97], ⟨10, 10, 10, 1⟩))]
        [(1094795524, ([65, 65, 65, 98], ⟨20, 20, 20, 1⟩))] ≠
      Citymap.merge_with [(1094795524, ([65, 65, 65, 98], ⟨20, 20, 20, 1⟩))]
        [(1094795524, ([65, 65, 65, 97], ⟨10, 10, 10, 1⟩))] := by
  refine ⟨by decide, by decide, by decide⟩
